import Mathlib

/-!
Verification of the ECG processing pipeline (`process_ecg.py`).

The development shallowly embeds the signal-processing core: the FIR
band-pass wrapper (`fir_bandpass`), the landmark locator (`detect_pqrst`),
the phase-interval builder (the `phases` loop), and the plot trimming.
Amplitudes are modelled as exact rationals; sample indices as naturals.

Window widths such as `int(0.08 * fs)` are modelled by their exact-real
values (`⌊2·fs/25⌋` etc.).  The IEEE-754 evaluation in the source can
differ from the exact value by at most one sample in corner cases; none
of the properties proved below depends on the numeric value of a width.
-/

/-- Python / numpy slice `l[a:b]` (out-of-range bounds clamp, `a ≥ b`
gives the empty list). -/
def pySlice (l : List ℚ) (a b : ℕ) : List ℚ :=
  (l.drop a).take (b - a)

/-- `np.argmin`: index of the minimum value, first occurrence on ties
(left-to-right scan).  On the empty list (never searched by the source,
which guards every search with `end > start`) it returns 0. -/
def argminIdx : List ℚ → ℕ
  | [] => 0
  | [_] => 0
  | x :: y :: ys =>
    if x ≤ (y :: ys).getD (argminIdx (y :: ys)) 0 then 0 else argminIdx (y :: ys) + 1

/-- `np.argmax`: index of the maximum value, first occurrence on ties. -/
def argmaxIdx : List ℚ → ℕ
  | [] => 0
  | [_] => 0
  | x :: y :: ys =>
    if (y :: ys).getD (argmaxIdx (y :: ys)) 0 ≤ x then 0 else argmaxIdx (y :: ys) + 1

/-! ## Landmark locator (`detect_pqrst`, process_ecg.py lines 88-138) -/

/-- Q search window: `(max(0, r_int - int(0.08 * fs)), r_int)`.
Natural subtraction performs the `max(0, ·)` clamp. -/
def qWindow (fs r : ℕ) : ℕ × ℕ :=
  (r - 2 * fs / 25, r)

/-- S search window: `(r_int, min(len(filtered), r_int + int(0.08 * fs)))`. -/
def sWindow (N fs r : ℕ) : ℕ × ℕ :=
  (r, min N (r + 2 * fs / 25))

/-- P search window: `(max(0, int(qp - 0.2 * fs)), int(qp))`.
Exactly, `max(0, ⌊q - fs/5⌋) = q - ⌈fs/5⌉` in natural subtraction. -/
def pWindow (fs q : ℕ) : ℕ × ℕ :=
  (q - (fs + 4) / 5, q)

/-- T search window: `(int(sp), min(len(filtered), int(sp + 0.4 * fs)))`. -/
def tWindow (N fs s : ℕ) : ℕ × ℕ :=
  (s, min N (s + 2 * fs / 5))

/-- The guarded minimum search of the source,
`if end > start: start + np.argmin(filtered[start:end]) else None`. -/
def searchMin (filtered : List ℚ) (a b : ℕ) : Option ℕ :=
  if a < b then some (a + argminIdx (pySlice filtered a b)) else none

/-- The guarded maximum search of the source,
`if end > start: start + np.argmax(filtered[start:end]) else None`. -/
def searchMax (filtered : List ℚ) (a b : ℕ) : Option ℕ :=
  if a < b then some (a + argmaxIdx (pySlice filtered a b)) else none

/-- One iteration of the `for r in r_peaks` loop of `detect_pqrst`:
the optional landmark indices `(P, Q, S, T)` located around one R-peak.
Q and S search their windows with `argmin`; P (only when Q is defined)
and T (only when S is defined) with `argmax`. -/
def detectBeat (filtered : List ℚ) (fs r : ℕ) :
    Option ℕ × Option ℕ × Option ℕ × Option ℕ :=
  let N := filtered.length
  let q_val := searchMin filtered (qWindow fs r).1 (qWindow fs r).2
  let s_val := searchMin filtered (sWindow N fs r).1 (sWindow N fs r).2
  let p_val : Option ℕ :=
    match q_val with
    | none => none
    | some qp => searchMax filtered (pWindow fs qp).1 (pWindow fs qp).2
  let t_val : Option ℕ :=
    match s_val with
    | none => none
    | some sp => searchMax filtered (tWindow N fs sp).1 (tWindow N fs sp).2
  (p_val, q_val, s_val, t_val)

/-- The five per-wave arrays returned by `detect_pqrst`
(`{'P': ..., 'Q': ..., 'R': ..., 'S': ..., 'T': ...}`). -/
structure Waves where
  P : List (Option ℕ)
  Q : List (Option ℕ)
  R : List ℕ
  S : List (Option ℕ)
  T : List (Option ℕ)
deriving DecidableEq, Repr

/-- `detect_pqrst(filtered, r_peaks, fs)`: the loop appends one P/Q/S/T
value per R-peak; each iteration is independent, so the per-wave arrays
are maps of `detectBeat` over the peaks. -/
def detect_pqrst (filtered : List ℚ) (r_peaks : List ℕ) (fs : ℕ) : Waves :=
  { P := r_peaks.map fun r => (detectBeat filtered fs r).1
    Q := r_peaks.map fun r => (detectBeat filtered fs r).2.1
    R := r_peaks
    S := r_peaks.map fun r => (detectBeat filtered fs r).2.2.1
    T := r_peaks.map fun r => (detectBeat filtered fs r).2.2.2 }

/-! ## Phase interval builder (`phases` loop, process_ecg.py lines 151-167) -/

/-- One serialized phase record `{"entry": ..., "duration": ..., "phase": ...}`. -/
structure Phase where
  entry : ℚ
  duration : ℚ
  phase : String
deriving DecidableEq, Repr

/-- One entry of
`waves = {w: [i / fs for i in info[w] if i is not None] for w in ['P', 'Q', 'S', 'T']}`:
the wave-type array compacted by dropping `None`s, each index divided by `fs`. -/
def waveTimes (fs : ℕ) (arr : List (Option ℕ)) : List ℚ :=
  arr.filterMap fun o => o.map fun i => (i : ℚ) / fs

/-- The body of the `phases` loop: the PQ, QRS and ST records appended for
one index `i` of the compacted arrays.  (After compaction no entry is
`None`, so the three `is not None` guards always hold and the `except`
branches are dead.) -/
def phaseTriple (fs : ℕ) (w : Waves) (i : ℕ) : List Phase :=
  [⟨(waveTimes fs w.P).getD i 0,
    (waveTimes fs w.Q).getD i 0 - (waveTimes fs w.P).getD i 0, "PQ"⟩,
   ⟨(waveTimes fs w.Q).getD i 0,
    (waveTimes fs w.S).getD i 0 - (waveTimes fs w.Q).getD i 0, "QRS"⟩,
   ⟨(waveTimes fs w.S).getD i 0,
    (waveTimes fs w.T).getD i 0 - (waveTimes fs w.S).getD i 0, "ST"⟩]

/-- The `phases` loop: for
`i in range(min(len(waves['P']), len(waves['Q']), len(waves['S']), len(waves['T'])))`
append a PQ, a QRS and an ST record built from the `i`-th entries of the
compacted arrays. -/
def build_phases (fs : ℕ) (w : Waves) : List Phase :=
  let n := min (min (waveTimes fs w.P).length (waveTimes fs w.Q).length)
      (min (waveTimes fs w.S).length (waveTimes fs w.T).length)
  (List.range n).flatMap (phaseTriple fs w)

/-- Modelled from the spec (§4.3), not from the source: the per-beat phase
builder that pairs landmarks **within the same beat record**, emitting each
interval iff both of its endpoints are defined for that beat.  Used only to
compare against the implemented `build_phases`. -/
def build_phases_spec (fs : ℕ) (w : Waves) : List Phase :=
  (List.range w.R.length).flatMap fun i =>
    (match w.P.getD i none, w.Q.getD i none with
     | some p, some q => [⟨(p : ℚ) / fs, ((q : ℚ) - p) / fs, "PQ"⟩]
     | _, _ => []) ++
    (match w.Q.getD i none, w.S.getD i none with
     | some q, some s => [⟨(q : ℚ) / fs, ((s : ℚ) - q) / fs, "QRS"⟩]
     | _, _ => []) ++
    (match w.S.getD i none, w.T.getD i none with
     | some s, some t => [⟨(s : ℚ) / fs, ((t : ℚ) - s) / fs, "ST"⟩]
     | _, _ => [])

/-! ## Plot artifact (`filtered[:fs * 60]`, process_ecg.py line 148) -/

/-- The trimmed trace serialized to the plot artifact. -/
def plotTrace (filtered : List ℚ) (fs : ℕ) : List ℚ :=
  filtered.take (fs * 60)

/-- The two output artifacts of one run: the trimmed plot trace and the
phase list built from the located landmarks. -/
def runOutputs (filtered : List ℚ) (r_peaks : List ℕ) (fs : ℕ) :
    List ℚ × List Phase :=
  (plotTrace filtered fs, build_phases fs (detect_pqrst filtered r_peaks fs))

/-! ## Filter designer/applier (`fir_bandpass`, process_ecg.py lines 67-72) -/

/-- The tap-count adjustment `if taps % 2 == 0: taps += 1`. -/
def effTaps (taps : ℤ) : ℤ :=
  if taps % 2 == 0 then taps + 1 else taps

/-- Modelled from the spec: `scipy.signal.firwin` is external library code.
The spec fixes only that the design yields one real coefficient per
(adjusted) tap (§3: "Filter Coefficients ... length is fixed at
filter-construction time"); the windowed-sinc values themselves are outside
every claim, so they are abstracted to zero. -/
def firwin (numtaps : ℕ) (low high : ℚ) : List ℚ :=
  (List.replicate numtaps 0).map fun c => c + 0 * (low + high)

/-- Modelled from the spec: `scipy.signal.lfilter(b, 1.0, x)` is external
library code.  §4.1: "applied as a causal (non-centered) convolution:
output length equals input length", with "implicit zero-padding before
index 0". -/
def lfilter (b x : List ℚ) : List ℚ :=
  (List.range x.length).map fun n =>
    (List.range b.length).foldl
      (fun acc k => acc + (if k ≤ n then b.getD k 0 * x.getD (n - k) 0 else 0)) 0

/-- Error taxonomy entry for a malformed filter request (§7). -/
inductive FilterError where
  | invalidFilterParameters
deriving DecidableEq, Repr

/-- `fir_bandpass(ecg, fs, low, high, taps)`.  The source computes
`nyq = 0.5 * fs`, adjusts `taps` to odd, and delegates design and
application to scipy.  Parameter validation is modelled from the spec
(§4.1 Failure): the guard (externally enforced by `scipy.signal.firwin`,
which rejects out-of-range or non-increasing normalized cutoffs) fails
with `InvalidFilterParameters` and produces no output. -/
def fir_bandpass (ecg : List ℚ) (fs low high : ℚ) (taps : ℤ) :
    Except FilterError (List ℚ) :=
  let nyq := 1 / 2 * fs
  if fs ≤ 0 then .error .invalidFilterParameters
  else if taps < 1 then .error .invalidFilterParameters
  else if ¬ (0 < low / nyq ∧ low / nyq < high / nyq ∧ high / nyq < 1) then
    .error .invalidFilterParameters
  else
    .ok (lfilter (firwin (effTaps taps).toNat (low / nyq) (high / nyq)) ecg)

/-- `v` is an index of the window `[a, b) ∩ [0, len l)` holding the window
minimum, and every strictly earlier window index holds a strictly larger
value — i.e. `v` is what a left-to-right minimum scan returns. -/
def firstMinIn (l : List ℚ) (a b v : ℕ) : Prop :=
  a ≤ v ∧ v < min b l.length ∧
  (∀ j, a ≤ j → j < min b l.length → l.getD v 0 ≤ l.getD j 0) ∧
  (∀ j, a ≤ j → j < v → l.getD v 0 < l.getD j 0)

/-- `v` is an index of the window `[a, b) ∩ [0, len l)` holding the window
maximum, and every strictly earlier window index holds a strictly smaller
value — i.e. `v` is what a left-to-right maximum scan returns. -/
def firstMaxIn (l : List ℚ) (a b v : ℕ) : Prop :=
  a ≤ v ∧ v < min b l.length ∧
  (∀ j, a ≤ j → j < min b l.length → l.getD j 0 ≤ l.getD v 0) ∧
  (∀ j, a ≤ j → j < v → l.getD j 0 < l.getD v 0)

/-! ## Helper lemmas: detectBeat components -/

theorem detectBeat_Q (filtered : List ℚ) (fs r : ℕ) :
    (detectBeat filtered fs r).2.1 =
      searchMin filtered (qWindow fs r).1 (qWindow fs r).2 := rfl

theorem detectBeat_S (filtered : List ℚ) (fs r : ℕ) :
    (detectBeat filtered fs r).2.2.1 =
      searchMin filtered (sWindow filtered.length fs r).1
        (sWindow filtered.length fs r).2 := rfl

theorem detectBeat_P (filtered : List ℚ) (fs r : ℕ) :
    (detectBeat filtered fs r).1 =
      match (detectBeat filtered fs r).2.1 with
      | none => none
      | some qp => searchMax filtered (pWindow fs qp).1 (pWindow fs qp).2 := rfl

theorem detectBeat_T (filtered : List ℚ) (fs r : ℕ) :
    (detectBeat filtered fs r).2.2.2 =
      match (detectBeat filtered fs r).2.2.1 with
      | none => none
      | some sp =>
        searchMax filtered (tWindow filtered.length fs sp).1
          (tWindow filtered.length fs sp).2 := rfl

/-! ## Helper lemmas: slices and first-occurrence arg-extrema -/

theorem pySlice_length (l : List ℚ) (a b : ℕ) :
    (pySlice l a b).length = min b l.length - a := by
  simp only [pySlice, List.length_take, List.length_drop]
  omega

theorem pySlice_getD (l : List ℚ) (a b k : ℕ) (hk : k < (pySlice l a b).length) :
    (pySlice l a b).getD k 0 = l.getD (a + k) 0 := by
  simp only [pySlice, List.length_take, List.length_drop] at hk
  simp only [pySlice]
  rw [List.getD_eq_getElem?_getD, List.getD_eq_getElem?_getD, List.getElem?_take,
    if_pos (by omega : k < b - a), List.getElem?_drop]

theorem argminIdx_lt_length (l : List ℚ) (h : l ≠ []) : argminIdx l < l.length := by
  induction l with
  | nil => simp at h
  | cons x xs ih =>
    cases xs with
    | nil => simp [argminIdx]
    | cons y ys =>
      have hlt := ih (by simp)
      simp only [argminIdx, List.length_cons] at hlt ⊢
      split <;> omega

theorem argminIdx_le_getD (l : List ℚ) (j : ℕ) (hj : j < l.length) :
    l.getD (argminIdx l) 0 ≤ l.getD j 0 := by
  induction l generalizing j with
  | nil => simp at hj
  | cons x xs ih =>
    cases xs with
    | nil =>
      cases j with
      | zero => simp [argminIdx]
      | succ k => simp at hj
    | cons y ys =>
      by_cases hle : x ≤ (y :: ys).getD (argminIdx (y :: ys)) 0
      · rw [show argminIdx (x :: y :: ys) = 0 by rw [argminIdx, if_pos hle]]
        cases j with
        | zero => simp
        | succ k =>
          have hk : k < (y :: ys).length := Nat.lt_of_succ_lt_succ hj
          simpa using hle.trans (ih k hk)
      · rw [show argminIdx (x :: y :: ys) = argminIdx (y :: ys) + 1 by
          rw [argminIdx, if_neg hle]]
        cases j with
        | zero =>
          simpa using le_of_lt (lt_of_not_le hle)
        | succ k =>
          have hk : k < (y :: ys).length := Nat.lt_of_succ_lt_succ hj
          simpa using ih k hk

theorem argminIdx_first (l : List ℚ) (j : ℕ) (hj : j < argminIdx l) :
    l.getD (argminIdx l) 0 < l.getD j 0 := by
  induction l generalizing j with
  | nil => simp [argminIdx] at hj
  | cons x xs ih =>
    cases xs with
    | nil => simp [argminIdx] at hj
    | cons y ys =>
      by_cases hle : x ≤ (y :: ys).getD (argminIdx (y :: ys)) 0
      · rw [show argminIdx (x :: y :: ys) = 0 by rw [argminIdx, if_pos hle]] at hj
        omega
      · rw [show argminIdx (x :: y :: ys) = argminIdx (y :: ys) + 1 by
          rw [argminIdx, if_neg hle]] at hj ⊢
        cases j with
        | zero =>
          simpa using lt_of_not_le hle
        | succ k =>
          have hk : k < argminIdx (y :: ys) := Nat.lt_of_succ_lt_succ hj
          simpa using ih k hk

theorem argmaxIdx_lt_length (l : List ℚ) (h : l ≠ []) : argmaxIdx l < l.length := by
  induction l with
  | nil => simp at h
  | cons x xs ih =>
    cases xs with
    | nil => simp [argmaxIdx]
    | cons y ys =>
      have hlt := ih (by simp)
      simp only [argmaxIdx, List.length_cons] at hlt ⊢
      split <;> omega

theorem argmaxIdx_ge_getD (l : List ℚ) (j : ℕ) (hj : j < l.length) :
    l.getD j 0 ≤ l.getD (argmaxIdx l) 0 := by
  induction l generalizing j with
  | nil => simp at hj
  | cons x xs ih =>
    cases xs with
    | nil =>
      cases j with
      | zero => simp [argmaxIdx]
      | succ k => simp at hj
    | cons y ys =>
      by_cases hle : (y :: ys).getD (argmaxIdx (y :: ys)) 0 ≤ x
      · rw [show argmaxIdx (x :: y :: ys) = 0 by rw [argmaxIdx, if_pos hle]]
        cases j with
        | zero => simp
        | succ k =>
          have hk : k < (y :: ys).length := Nat.lt_of_succ_lt_succ hj
          simpa using (ih k hk).trans hle
      · rw [show argmaxIdx (x :: y :: ys) = argmaxIdx (y :: ys) + 1 by
          rw [argmaxIdx, if_neg hle]]
        cases j with
        | zero =>
          simpa using le_of_lt (lt_of_not_le hle)
        | succ k =>
          have hk : k < (y :: ys).length := Nat.lt_of_succ_lt_succ hj
          simpa using ih k hk

theorem searchMin_eq_some (filtered : List ℚ) (a b v : ℕ)
    (h : searchMin filtered a b = some v) :
    a < b ∧ v = a + argminIdx (pySlice filtered a b) := by
  unfold searchMin at h
  split at h
  · exact ⟨by assumption, by injection h; omega⟩
  · exact absurd h (by simp)

theorem searchMax_eq_some (filtered : List ℚ) (a b v : ℕ)
    (h : searchMax filtered a b = some v) :
    a < b ∧ v = a + argmaxIdx (pySlice filtered a b) := by
  unfold searchMax at h
  split at h
  · exact ⟨by assumption, by injection h; omega⟩
  · exact absurd h (by simp)

theorem searchMin_range (filtered : List ℚ) (a b v : ℕ) (hb : b ≤ filtered.length)
    (h : searchMin filtered a b = some v) : a ≤ v ∧ v < b := by
  obtain ⟨hab, hv⟩ := searchMin_eq_some filtered a b v h
  have hlen : (pySlice filtered a b).length = b - a := by
    rw [pySlice_length]; omega
  have hne : pySlice filtered a b ≠ [] := by
    apply List.ne_nil_of_length_pos
    omega
  have := argminIdx_lt_length _ hne
  omega

theorem searchMax_range (filtered : List ℚ) (a b v : ℕ) (hb : b ≤ filtered.length)
    (h : searchMax filtered a b = some v) : a ≤ v ∧ v < b := by
  obtain ⟨hab, hv⟩ := searchMax_eq_some filtered a b v h
  have hlen : (pySlice filtered a b).length = b - a := by
    rw [pySlice_length]; omega
  have hne : pySlice filtered a b ≠ [] := by
    apply List.ne_nil_of_length_pos
    omega
  have := argmaxIdx_lt_length _ hne
  omega

theorem argmaxIdx_first (l : List ℚ) (j : ℕ) (hj : j < argmaxIdx l) :
    l.getD j 0 < l.getD (argmaxIdx l) 0 := by
  induction l generalizing j with
  | nil => simp [argmaxIdx] at hj
  | cons x xs ih =>
    cases xs with
    | nil => simp [argmaxIdx] at hj
    | cons y ys =>
      by_cases hle : (y :: ys).getD (argmaxIdx (y :: ys)) 0 ≤ x
      · rw [show argmaxIdx (x :: y :: ys) = 0 by rw [argmaxIdx, if_pos hle]] at hj
        omega
      · rw [show argmaxIdx (x :: y :: ys) = argmaxIdx (y :: ys) + 1 by
          rw [argmaxIdx, if_neg hle]] at hj ⊢
        cases j with
        | zero =>
          simpa using lt_of_not_le hle
        | succ k =>
          have hk : k < argmaxIdx (y :: ys) := Nat.lt_of_succ_lt_succ hj
          simpa using ih k hk

/-! ## Per-beat landmark bounds -/

theorem detectBeat_q_bounds (filtered : List ℚ) (fs r : ℕ) (h : r < filtered.length)
    (q : ℕ) (hq : (detectBeat filtered fs r).2.1 = some q) :
    r - 2 * fs / 25 ≤ q ∧ q < r := by
  rw [detectBeat_Q] at hq
  exact searchMin_range filtered _ _ q (le_of_lt h) hq

theorem detectBeat_s_bounds (filtered : List ℚ) (fs r : ℕ)
    (s : ℕ) (hs : (detectBeat filtered fs r).2.2.1 = some s) :
    r ≤ s ∧ s < min filtered.length (r + 2 * fs / 25) := by
  rw [detectBeat_S] at hs
  exact searchMin_range filtered _ _ s (Nat.min_le_left _ _) hs

theorem detectBeat_p_bounds (filtered : List ℚ) (fs r : ℕ) (h : r < filtered.length)
    (p : ℕ) (hp : (detectBeat filtered fs r).1 = some p) :
    ∃ q, (detectBeat filtered fs r).2.1 = some q ∧ q - (fs + 4) / 5 ≤ p ∧ p < q := by
  rw [detectBeat_P] at hp
  cases hq : (detectBeat filtered fs r).2.1 with
  | none => rw [hq] at hp; exact absurd hp (by simp)
  | some qp =>
    rw [hq] at hp
    have hqr := detectBeat_q_bounds filtered fs r h qp hq
    have hb : (pWindow fs qp).2 ≤ filtered.length := by
      simp only [pWindow]; omega
    have := searchMax_range filtered _ _ p hb hp
    exact ⟨qp, rfl, by simpa [pWindow] using this⟩

theorem detectBeat_t_bounds (filtered : List ℚ) (fs r : ℕ)
    (t : ℕ) (ht : (detectBeat filtered fs r).2.2.2 = some t) :
    ∃ s, (detectBeat filtered fs r).2.2.1 = some s ∧ s ≤ t ∧
      t < min filtered.length (s + 2 * fs / 5) := by
  rw [detectBeat_T] at ht
  cases hs : (detectBeat filtered fs r).2.2.1 with
  | none => rw [hs] at ht; exact absurd ht (by simp)
  | some sp =>
    rw [hs] at ht
    have hb : (tWindow filtered.length fs sp).2 ≤ filtered.length := by
      simp only [tWindow]; exact Nat.min_le_left _ _
    have := searchMax_range filtered _ _ t hb ht
    exact ⟨sp, rfl, by simpa [tWindow] using this⟩

theorem detect_pqrst_getD (filtered : List ℚ) (r_peaks : List ℕ) (fs i : ℕ)
    (hi : i < r_peaks.length) :
    (detect_pqrst filtered r_peaks fs).P.getD i none =
        (detectBeat filtered fs (r_peaks.getD i 0)).1 ∧
    (detect_pqrst filtered r_peaks fs).Q.getD i none =
        (detectBeat filtered fs (r_peaks.getD i 0)).2.1 ∧
    (detect_pqrst filtered r_peaks fs).S.getD i none =
        (detectBeat filtered fs (r_peaks.getD i 0)).2.2.1 ∧
    (detect_pqrst filtered r_peaks fs).T.getD i none =
        (detectBeat filtered fs (r_peaks.getD i 0)).2.2.2 ∧
    (detect_pqrst filtered r_peaks fs).R.getD i 0 = r_peaks.getD i 0 := by
  have hget : r_peaks[i]? = some r_peaks[i] := List.getElem?_eq_getElem hi
  have hgd : r_peaks.getD i 0 = r_peaks[i] := by
    rw [List.getD_eq_getElem?_getD, hget]; rfl
  refine ⟨?_, ?_, ?_, ?_, by simp [detect_pqrst]⟩ <;>
    simp [detect_pqrst, List.getD_eq_getElem?_getD, List.getElem?_map, hget, hgd]

/-! ## Claim theorems -/

/-- C2 (counterexample): the claimed invariant `P < Q ≤ R ≤ S < T` fails on
the code.  For the trace `[5, 1]` with `fs = 100` and the single R-peak `0`,
the locator returns `S = 1` and `T = 1` for the same beat (the T window
starts at S itself and the maximum of the window sits at its first sample),
so `S < T` is false. -/
theorem detect_pqrst_S_eq_T_counterexample :
    (detect_pqrst [5, 1] [0] 100).S = [some 1] ∧
    (detect_pqrst [5, 1] [0] 100).T = [some 1] ∧
    ¬ (∀ s t : ℕ, (detect_pqrst [5, 1] [0] 100).S = [some s] →
        (detect_pqrst [5, 1] [0] 100).T = [some t] → s < t) := by
  refine ⟨by decide, by decide, fun hcl => ?_⟩
  exact absurd (hcl 1 1 (by decide) (by decide)) (by decide)

/-- C2 (amended): for every beat record produced by `detect_pqrst` on an
in-range R-peak, the defined landmarks satisfy `P < Q ≤ R ≤ S ≤ T`
(the last comparison is non-strict: the T window includes S itself). -/
theorem detect_pqrst_landmark_order (filtered : List ℚ) (r_peaks : List ℕ)
    (fs i : ℕ) (hi : i < r_peaks.length)
    (hr : r_peaks.getD i 0 < filtered.length) :
    (∀ p q, (detect_pqrst filtered r_peaks fs).P.getD i none = some p →
       (detect_pqrst filtered r_peaks fs).Q.getD i none = some q → p < q) ∧
    (∀ q, (detect_pqrst filtered r_peaks fs).Q.getD i none = some q →
       q ≤ (detect_pqrst filtered r_peaks fs).R.getD i 0) ∧
    (∀ s, (detect_pqrst filtered r_peaks fs).S.getD i none = some s →
       (detect_pqrst filtered r_peaks fs).R.getD i 0 ≤ s) ∧
    (∀ s t, (detect_pqrst filtered r_peaks fs).S.getD i none = some s →
       (detect_pqrst filtered r_peaks fs).T.getD i none = some t → s ≤ t) := by
  obtain ⟨hP, hQ, hS, hT, hR⟩ := detect_pqrst_getD filtered r_peaks fs i hi
  refine ⟨?_, ?_, ?_, ?_⟩
  · intro p q hp hq
    rw [hP] at hp
    rw [hQ] at hq
    obtain ⟨q', hq', _, hpq⟩ := detectBeat_p_bounds filtered fs _ hr p hp
    rw [hq] at hq'
    injection hq' with h
    omega
  · intro q hq
    rw [hQ] at hq
    rw [hR]
    exact le_of_lt (detectBeat_q_bounds filtered fs _ hr q hq).2
  · intro s hs
    rw [hS] at hs
    rw [hR]
    exact (detectBeat_s_bounds filtered fs _ s hs).1
  · intro s t hs ht
    rw [hS] at hs
    rw [hT] at ht
    obtain ⟨s', hs', hst, _⟩ := detectBeat_t_bounds filtered fs _ t ht
    rw [hs] at hs'
    injection hs' with h
    omega

/-- C2 (witness for the amended theorem): on the trace
`[10, -5, 0, 9, -7, 8]` with `fs = 25` and R-peak `3`, all four landmarks
are defined (`P = 0, Q = 1, S = 4, T = 5`) and the order `P < Q ≤ R ≤ S ≤ T`
holds concretely. -/
theorem detect_pqrst_landmark_order_witness :
    (detect_pqrst [10, -5, 0, 9, -7, 8] [3] 25).P = [some 0] ∧
    (0 : ℕ) < 1 ∧ (1 : ℕ) ≤ 3 ∧ (3 : ℕ) ≤ 4 ∧ (4 : ℕ) ≤ 5 := by
  have h := detect_pqrst_landmark_order [10, -5, 0, 9, -7, 8] [3] 25 0
    (by decide) (by decide)
  exact ⟨by decide,
    h.1 0 1 (by decide) (by decide),
    h.2.1 1 (by decide),
    h.2.2.1 4 (by decide),
    h.2.2.2 4 5 (by decide) (by decide)⟩

/-- C4: for any requested tap count the effective count is odd and at least
the requested value; an even request is incremented by exactly one and an
odd request is used unchanged. -/
theorem effTaps_odd_ge_requested (t : ℤ) :
    Odd (effTaps t) ∧ t ≤ effTaps t ∧ effTaps t = if t % 2 = 0 then t + 1 else t := by
  unfold effTaps
  split
  case isTrue h =>
    have he : t % 2 = 0 := by simpa using h
    exact ⟨(Int.even_iff.mpr he).add_one, by omega, by simp [he]⟩
  case isFalse h =>
    have he : ¬ t % 2 = 0 := by simpa using h
    have h1 : t % 2 = 1 := by omega
    exact ⟨Int.odd_iff.mpr h1, le_refl t, by simp [he]⟩

/-- C3: the band-pass operation fails with `InvalidFilterParameters`
exactly when `sampling_rate ≤ 0`, or `tap_count < 1`, or the
Nyquist-normalized cutoffs violate `0 < low < high < 1`; in the failure
case the result is the bare error, so no partial output exists. -/
theorem fir_bandpass_invalid_iff (ecg : List ℚ) (fs low high : ℚ) (taps : ℤ) :
    fir_bandpass ecg fs low high taps = .error .invalidFilterParameters ↔
      fs ≤ 0 ∨ taps < 1 ∨
        ¬ (0 < low / (1 / 2 * fs) ∧ low / (1 / 2 * fs) < high / (1 / 2 * fs) ∧
            high / (1 / 2 * fs) < 1) := by
  simp only [fir_bandpass]
  split
  case isTrue h => exact ⟨fun _ => Or.inl h, fun _ => rfl⟩
  case isFalse h =>
    split
    case isTrue h2 => exact ⟨fun _ => Or.inr (Or.inl h2), fun _ => rfl⟩
    case isFalse h2 =>
      split
      case isTrue h3 => exact ⟨fun _ => Or.inr (Or.inr h3), fun _ => rfl⟩
      case isFalse h3 =>
        have hcond := not_not.mp h3
        constructor
        · intro heq; exact absurd heq (by simp)
        · rintro (hc | hc | hc)
          · exact absurd hc h
          · exact absurd hc h2
          · exact absurd hcond hc

theorem lfilter_length (b x : List ℚ) : (lfilter b x).length = x.length := by
  simp [lfilter]

/-- C5: whenever the band-pass filter succeeds, the filtered trace has
exactly the length of the input trace. -/
theorem fir_bandpass_length_preserved (ecg : List ℚ) (fs low high : ℚ)
    (taps : ℤ) (out : List ℚ)
    (h : fir_bandpass ecg fs low high taps = .ok out) :
    out.length = ecg.length := by
  simp only [fir_bandpass] at h
  split at h
  · exact absurd h (by simp)
  split at h
  · exact absurd h (by simp)
  split at h
  · exact absurd h (by simp)
  injection h with h
  rw [← h, lfilter_length]

/-- C5 (witness): a concrete valid request (`fs = 500`, cutoffs `3 < 45`,
5 taps) on a trace of length 3 returns a trace of length 3. -/
theorem fir_bandpass_length_preserved_witness :
    ((fir_bandpass [1, 2, 3] 500 3 45 5).toOption.getD []).length = 3 := by
  have h : fir_bandpass [1, 2, 3] 500 3 45 5 = .ok [0, 0, 0] := by
    norm_num [fir_bandpass, lfilter, firwin, effTaps, List.range_succ]
  have hl := fir_bandpass_length_preserved [1, 2, 3] 500 3 45 5 [0, 0, 0] h
  rw [h]
  exact hl.trans rfl

/-- C6: with an empty R-peak sequence (e.g. after the detector degrades to
zero peaks) the locator returns empty per-wave arrays, the phases artifact
is the empty sequence, and the trimmed plot trace is still produced. -/
theorem empty_r_peaks_outputs (filtered : List ℚ) (fs : ℕ) :
    detect_pqrst filtered [] fs = ⟨[], [], [], [], []⟩ ∧
    (runOutputs filtered [] fs).2 = [] ∧
    (runOutputs filtered [] fs).1 = filtered.take (fs * 60) := by
  refine ⟨by simp [detect_pqrst], ?_, rfl⟩
  simp [runOutputs, build_phases, detect_pqrst, waveTimes]

/-- C9: the plot artifact is exactly the first `min(length, 60 · fs)`
samples of the filtered trace, with every retained sample unmodified. -/
theorem plot_trace_first_samples (filtered : List ℚ) (fs i : ℕ) :
    (plotTrace filtered fs).length = min filtered.length (60 * fs) ∧
    (plotTrace filtered fs).getD i 0 =
      if i < fs * 60 then filtered.getD i 0 else 0 := by
  constructor
  · simp [plotTrace, Nat.min_comm, Nat.mul_comm]
  · rw [plotTrace, List.getD_eq_getElem?_getD, List.getElem?_take]
    split
    · rw [List.getD_eq_getElem?_getD]
    · rfl

/-- C7: for an R-peak `r` with `0 ≤ r < N`, every search window is clamped
inside `[0, N]` with `start ≤ end`, so every sample access of every search
stays in bounds; and an empty (non-positive-width) window yields an
undefined landmark rather than an error, for each of Q, S, P, T. -/
theorem detect_windows_wellformed (filtered : List ℚ) (fs r : ℕ)
    (h : r < filtered.length) :
    ((qWindow fs r).1 ≤ (qWindow fs r).2 ∧ (qWindow fs r).2 ≤ filtered.length) ∧
    ((sWindow filtered.length fs r).1 ≤ (sWindow filtered.length fs r).2 ∧
      (sWindow filtered.length fs r).2 ≤ filtered.length) ∧
    (∀ q, (detectBeat filtered fs r).2.1 = some q →
      (pWindow fs q).1 ≤ (pWindow fs q).2 ∧ (pWindow fs q).2 ≤ filtered.length) ∧
    (∀ s, (detectBeat filtered fs r).2.2.1 = some s →
      (tWindow filtered.length fs s).1 ≤ (tWindow filtered.length fs s).2 ∧
      (tWindow filtered.length fs s).2 ≤ filtered.length) ∧
    (¬ (qWindow fs r).1 < (qWindow fs r).2 →
      (detectBeat filtered fs r).2.1 = none) ∧
    (¬ (sWindow filtered.length fs r).1 < (sWindow filtered.length fs r).2 →
      (detectBeat filtered fs r).2.2.1 = none) ∧
    ((detectBeat filtered fs r).2.1 = none → (detectBeat filtered fs r).1 = none) ∧
    ((detectBeat filtered fs r).2.2.1 = none →
      (detectBeat filtered fs r).2.2.2 = none) ∧
    (∀ q, (detectBeat filtered fs r).2.1 = some q →
      ¬ (pWindow fs q).1 < (pWindow fs q).2 → (detectBeat filtered fs r).1 = none) ∧
    (∀ s, (detectBeat filtered fs r).2.2.1 = some s →
      ¬ (tWindow filtered.length fs s).1 < (tWindow filtered.length fs s).2 →
      (detectBeat filtered fs r).2.2.2 = none) := by
  refine ⟨?_, ?_, ?_, ?_, ?_, ?_, ?_, ?_, ?_, ?_⟩
  · simp only [qWindow]; omega
  · simp only [sWindow]; omega
  · intro q hq
    have := detectBeat_q_bounds filtered fs r h q hq
    simp only [pWindow]; omega
  · intro s hs
    have := detectBeat_s_bounds filtered fs r s hs
    simp only [tWindow]; omega
  · intro hng
    rw [detectBeat_Q]
    simp [searchMin, hng]
  · intro hng
    rw [detectBeat_S]
    simp [searchMin, hng]
  · intro hq
    rw [detectBeat_P, hq]
  · intro hs
    rw [detectBeat_T, hs]
  · intro q hq hng
    rw [detectBeat_P, hq]
    simp [searchMax, hng]
  · intro s hs hng
    rw [detectBeat_T, hs]
    simp [searchMax, hng]

/-- C7 (witness): for the trace `[3, 7]` (`N = 2`, `fs = 100`) the Q window
of R-peak 1 is well-formed, and for R-peak 0 the Q window is empty so Q is
undefined rather than an error. -/
theorem detect_windows_wellformed_witness :
    ((qWindow 100 1).1 ≤ (qWindow 100 1).2 ∧ (qWindow 100 1).2 ≤ 2) ∧
    (detectBeat [3, 7] 100 0).2.1 = none := by
  have h1 := detect_windows_wellformed [3, 7] 100 1 (by decide)
  have h0 := detect_windows_wellformed [3, 7] 100 0 (by decide)
  exact ⟨h1.1, h0.2.2.2.2.1 (by decide)⟩

theorem searchMin_firstMinIn (l : List ℚ) (a b v : ℕ) (hb : b ≤ l.length)
    (h : searchMin l a b = some v) : firstMinIn l a b v := by
  obtain ⟨hab, hv⟩ := searchMin_eq_some l a b v h
  have hlen : (pySlice l a b).length = b - a := by rw [pySlice_length]; omega
  have hne : pySlice l a b ≠ [] := List.ne_nil_of_length_pos (by omega)
  have harglt := argminIdx_lt_length _ hne
  refine ⟨by omega, by omega, ?_, ?_⟩
  · intro j haj hjb
    have hj' : j - a < (pySlice l a b).length := by omega
    have hle := argminIdx_le_getD (pySlice l a b) (j - a) hj'
    rw [pySlice_getD l a b _ (by omega), pySlice_getD l a b _ hj'] at hle
    have he : a + (j - a) = j := by omega
    rw [he] at hle
    rw [hv]
    exact hle
  · intro j haj hjv
    have hjv' : j - a < argminIdx (pySlice l a b) := by omega
    have hlt := argminIdx_first (pySlice l a b) (j - a) hjv'
    rw [pySlice_getD l a b _ (by omega), pySlice_getD l a b _ (by omega)] at hlt
    have he : a + (j - a) = j := by omega
    rw [he] at hlt
    rw [hv]
    exact hlt

theorem searchMax_firstMaxIn (l : List ℚ) (a b v : ℕ) (hb : b ≤ l.length)
    (h : searchMax l a b = some v) : firstMaxIn l a b v := by
  obtain ⟨hab, hv⟩ := searchMax_eq_some l a b v h
  have hlen : (pySlice l a b).length = b - a := by rw [pySlice_length]; omega
  have hne : pySlice l a b ≠ [] := List.ne_nil_of_length_pos (by omega)
  have harglt := argmaxIdx_lt_length _ hne
  refine ⟨by omega, by omega, ?_, ?_⟩
  · intro j haj hjb
    have hj' : j - a < (pySlice l a b).length := by omega
    have hle := argmaxIdx_ge_getD (pySlice l a b) (j - a) hj'
    rw [pySlice_getD l a b (j - a) hj',
      pySlice_getD l a b (argmaxIdx (pySlice l a b)) (by omega)] at hle
    have he : a + (j - a) = j := by omega
    rw [he] at hle
    rw [hv]
    exact hle
  · intro j haj hjv
    have hjv' : j - a < argmaxIdx (pySlice l a b) := by omega
    have hlt := argmaxIdx_first (pySlice l a b) (j - a) hjv'
    rw [pySlice_getD l a b (j - a) (by omega),
      pySlice_getD l a b (argmaxIdx (pySlice l a b)) (by omega)] at hlt
    have he : a + (j - a) = j := by omega
    rw [he] at hlt
    rw [hv]
    exact hlt

/-- C8: every landmark returned by a window search of `detect_pqrst` is the
result of a left-to-right extremum scan of its window: it attains the
window minimum (Q, S) or maximum (P, T), and on ties it is the first
(lowest-index) occurrence — every strictly earlier window sample is
strictly worse. -/
theorem detect_searches_first_occurrence (filtered : List ℚ) (fs r : ℕ)
    (h : r < filtered.length) :
    (∀ q, (detectBeat filtered fs r).2.1 = some q →
      firstMinIn filtered (qWindow fs r).1 (qWindow fs r).2 q) ∧
    (∀ s, (detectBeat filtered fs r).2.2.1 = some s →
      firstMinIn filtered (sWindow filtered.length fs r).1
        (sWindow filtered.length fs r).2 s) ∧
    (∀ q p, (detectBeat filtered fs r).2.1 = some q →
      (detectBeat filtered fs r).1 = some p →
      firstMaxIn filtered (pWindow fs q).1 (pWindow fs q).2 p) ∧
    (∀ s t, (detectBeat filtered fs r).2.2.1 = some s →
      (detectBeat filtered fs r).2.2.2 = some t →
      firstMaxIn filtered (tWindow filtered.length fs s).1
        (tWindow filtered.length fs s).2 t) := by
  refine ⟨?_, ?_, ?_, ?_⟩
  · intro q hq
    rw [detectBeat_Q] at hq
    exact searchMin_firstMinIn filtered _ _ q (le_of_lt h) hq
  · intro s hs
    rw [detectBeat_S] at hs
    exact searchMin_firstMinIn filtered _ _ s (Nat.min_le_left _ _) hs
  · intro q p hq hp
    rw [detectBeat_P, hq] at hp
    have hqb := detectBeat_q_bounds filtered fs r h q hq
    exact searchMax_firstMaxIn filtered _ _ p (by simp only [pWindow]; omega) hp
  · intro s t hs ht
    rw [detectBeat_T, hs] at ht
    exact searchMax_firstMaxIn filtered _ _ t
      (by simp only [tWindow]; exact Nat.min_le_left _ _) ht

/-- C8 (witness): on `[9, 1, 1, 0]` with `fs = 25` the Q window of R-peak 3
is `[1, 3)` holding the tie `1, 1`; the search returns index 1, the first
occurrence, and the first-occurrence property holds for it. -/
theorem detect_searches_first_occurrence_witness :
    (detectBeat [9, 1, 1, 0] 25 3).2.1 = some 1 ∧
    firstMinIn [9, 1, 1, 0] (qWindow 25 3).1 (qWindow 25 3).2 1 := by
  have h := detect_searches_first_occurrence [9, 1, 1, 0] 25 3 (by decide)
  exact ⟨by decide, h.1 1 (by decide)⟩

theorem range_flatMap_triple_length (f : ℕ → List Phase)
    (hf : ∀ i, (f i).length = 3) (n : ℕ) :
    ((List.range n).flatMap f).length = 3 * n := by
  induction n with
  | zero => simp
  | succ m ih =>
    rw [List.range_succ, List.flatMap_append, List.length_append, ih]
    simp [hf]
    omega

theorem range_flatMap_triple_getD (f : ℕ → List Phase)
    (hf : ∀ i, (f i).length = 3) (n i k : ℕ) (hi : i < n) (hk : k < 3)
    (d : Phase) :
    ((List.range n).flatMap f).getD (3 * i + k) d = (f i).getD k d := by
  induction n with
  | zero => omega
  | succ m ih =>
    rw [List.range_succ, List.flatMap_append]
    rcases Nat.lt_or_ge i m with him | him
    · rw [List.getD_append]
      · exact ih him
      · rw [range_flatMap_triple_length f hf]
        omega
    · have hieq : i = m := by omega
      subst hieq
      rw [List.getD_append_right]
      · rw [range_flatMap_triple_length f hf]
        simp [Nat.add_sub_cancel_left]
      · rw [range_flatMap_triple_length f hf]
        omega

/-- C10: in the implemented phase builder each wave-type array is
independently compacted (undefined entries removed) and scaled by `1/fs`;
the output has exactly `3 · n` records where `n` is the minimum number of
defined P, Q, S, T entries; and for every position `i < n` the PQ, QRS and
ST records at output positions `3i, 3i+1, 3i+2` pair the `i`-th defined
landmark of each wave type by position, regardless of originating beat.
Positions `≥ n` contribute nothing. -/
theorem build_phases_positional_pairing (fs : ℕ) (w : Waves) :
    waveTimes fs w.P = (w.P.filterMap id).map (fun i : ℕ => (i : ℚ) / fs) ∧
    (build_phases fs w).length =
      3 * min (min (waveTimes fs w.P).length (waveTimes fs w.Q).length)
          (min (waveTimes fs w.S).length (waveTimes fs w.T).length) ∧
    ∀ i, i < min (min (waveTimes fs w.P).length (waveTimes fs w.Q).length)
          (min (waveTimes fs w.S).length (waveTimes fs w.T).length) →
      (build_phases fs w).getD (3 * i) ⟨0, 0, ""⟩ =
        ⟨(waveTimes fs w.P).getD i 0,
         (waveTimes fs w.Q).getD i 0 - (waveTimes fs w.P).getD i 0, "PQ"⟩ ∧
      (build_phases fs w).getD (3 * i + 1) ⟨0, 0, ""⟩ =
        ⟨(waveTimes fs w.Q).getD i 0,
         (waveTimes fs w.S).getD i 0 - (waveTimes fs w.Q).getD i 0, "QRS"⟩ ∧
      (build_phases fs w).getD (3 * i + 2) ⟨0, 0, ""⟩ =
        ⟨(waveTimes fs w.S).getD i 0,
         (waveTimes fs w.T).getD i 0 - (waveTimes fs w.S).getD i 0, "ST"⟩ := by
  refine ⟨?_, ?_, ?_⟩
  · rw [List.map_filterMap]
    unfold waveTimes
    congr 1
    funext o
    cases o <;> rfl
  · exact range_flatMap_triple_length (phaseTriple fs w) (fun i => rfl) _
  · intro i hi
    refine ⟨?_, ?_, ?_⟩
    · exact range_flatMap_triple_getD (phaseTriple fs w) (fun j => rfl) _ i 0 hi
        (by omega) ⟨0, 0, ""⟩
    · exact range_flatMap_triple_getD (phaseTriple fs w) (fun j => rfl) _ i 1 hi
        (by omega) ⟨0, 0, ""⟩
    · exact range_flatMap_triple_getD (phaseTriple fs w) (fun j => rfl) _ i 2 hi
        (by omega) ⟨0, 0, ""⟩

/-- C10 (witness): on a single fully-defined beat record with `fs = 2`,
position 0 of the output is the positional PQ record. -/
theorem build_phases_positional_pairing_witness :
    (build_phases 2
        { P := [some 2], Q := [some 4], R := [5], S := [some 6], T := [some 9] }).getD
        (3 * 0) ⟨0, 0, ""⟩ =
      ⟨(waveTimes 2 [some 2]).getD 0 0,
       (waveTimes 2 [some 4]).getD 0 0 - (waveTimes 2 [some 2]).getD 0 0, "PQ"⟩ :=
  ((build_phases_positional_pairing 2
      { P := [some 2], Q := [some 4], R := [5], S := [some 6], T := [some 9] }).2.2
    0 (by decide)).1

/-- C1 (the code evaluated at a failing input): with beat 0 having
`P = 1, Q = undefined, S = 3, T = 5` and beat 1 having
`P = 10, Q = 12, S = 14, T = 16` (`fs = 1`), the implemented builder pairs
beat 0's P with beat 1's Q into a PQ record and emits a negative-duration
QRS, unlike the per-beat pairing the claim describes (shown by
`build_phases_spec`, modelled from the spec). -/
theorem build_phases_crossbeat_misalignment :
    build_phases 1
        { P := [some 1, some 10], Q := [none, some 12], R := [2, 13],
          S := [some 3, some 14], T := [some 5, some 16] } =
      [⟨1, 11, "PQ"⟩, ⟨12, -9, "QRS"⟩, ⟨3, 2, "ST"⟩] ∧
    build_phases_spec 1
        { P := [some 1, some 10], Q := [none, some 12], R := [2, 13],
          S := [some 3, some 14], T := [some 5, some 16] } =
      [⟨3, 2, "ST"⟩, ⟨10, 2, "PQ"⟩, ⟨12, 2, "QRS"⟩, ⟨14, 2, "ST"⟩] ∧
    build_phases 1
        { P := [some 1, some 10], Q := [none, some 12], R := [2, 13],
          S := [some 3, some 14], T := [some 5, some 16] } ≠
      build_phases_spec 1
        { P := [some 1, some 10], Q := [none, some 12], R := [2, 13],
          S := [some 3, some 14], T := [some 5, some 16] } := by
  have h1 : build_phases 1
      { P := [some 1, some 10], Q := [none, some 12], R := [2, 13],
        S := [some 3, some 14], T := [some 5, some 16] } =
      [⟨1, 11, "PQ"⟩, ⟨12, -9, "QRS"⟩, ⟨3, 2, "ST"⟩] := by
    norm_num [build_phases, phaseTriple, waveTimes, List.filterMap, List.range_succ]
  have h2 : build_phases_spec 1
      { P := [some 1, some 10], Q := [none, some 12], R := [2, 13],
        S := [some 3, some 14], T := [some 5, some 16] } =
      [⟨3, 2, "ST"⟩, ⟨10, 2, "PQ"⟩, ⟨12, 2, "QRS"⟩, ⟨14, 2, "ST"⟩] := by
    norm_num [build_phases_spec, List.range_succ]
  refine ⟨h1, h2, ?_⟩
  rw [h1, h2]
  decide

/-- C4 (witness): the even request 4 becomes the odd count 5. -/
theorem effTaps_odd_ge_requested_witness :
    Odd (effTaps 4) ∧ effTaps 4 = 5 :=
  ⟨(effTaps_odd_ge_requested 4).1, by decide⟩

/-- C3 (witness): a request with `sampling_rate = 0` fails with
`InvalidFilterParameters`. -/
theorem fir_bandpass_invalid_iff_witness :
    fir_bandpass [1, 2, 3] 0 3 45 101 = .error .invalidFilterParameters :=
  (fir_bandpass_invalid_iff [1, 2, 3] 0 3 45 101).mpr (Or.inl (by norm_num))

/-- C6 (witness): on the trace `[1, 2]` with no R-peaks the phases artifact
is empty. -/
theorem empty_r_peaks_outputs_witness :
    (runOutputs [1, 2] [] 1).2 = [] :=
  (empty_r_peaks_outputs [1, 2] 1).2.1

/-- C9 (witness): the plot of the 2-sample trace at `fs = 1` keeps
`min(2, 60)` = 2 samples. -/
theorem plot_trace_first_samples_witness :
    (plotTrace [1, 2] 1).length = min 2 60 :=
  (plot_trace_first_samples [1, 2] 1 0).1
